import Mathlib

/-!
A shallow embedding of the in-memory task queue of
`app/services/queue.py` (class `MemoryQueue` and the factory
`create_queue`), together with proofs of the specified properties.

Modelling conventions:

* `uuid.uuid4()` is modelled as a fresh-identifier source: the state
  carries a counter `nextId` and each `enqueue` draws the next unused
  identifier.  Identifiers are therefore issued in strictly increasing
  order, which also serves as the record of enqueue order.
* `datetime.now().isoformat()` is modelled by a logical clock `now`;
  every step that reads the clock also advances it, so successive
  timestamp reads are strictly increasing.
* The worker coroutine `_worker` is modelled by a program counter
  (`WorkerPC`): `top` is the `while self._running` check, `waiting` is
  the suspension inside `asyncio.wait_for(self.tasks.get(), 1.0)`, and
  `handling t` is the suspension inside `await process_func(task)`
  (holding the task dict as mutated just before the call).  Arbitrary
  interleavings of producer calls with worker micro-steps are traces of
  the step function.
* The injected handler `process_func` is modelled by its eventual
  outcome, a pure function `Task → Except String Value`: `Except.ok v`
  is a normal return of `v`, `Except.error m` is a raised `Exception`
  whose `str()` is `m`.
* `stop_worker` sets `_running = False`, calls `self._worker_task.cancel()`
  and awaits the worker's exit.  Under `asyncio` (Python ≥ 3.8) the
  `CancelledError` is delivered at the worker's current suspension
  point.  If the worker is suspended inside `await process_func(task)`,
  the error propagates past `except Exception` (it is a `BaseException`),
  runs the `finally`, is caught by the outer `except asyncio.CancelledError`
  and breaks the loop.  If the handler finishes before the cancellation
  can be delivered, the loop observes `_running == False` at its top and
  exits normally without any further await.  Which of the two happens is
  timing-dependent; `stop_worker` below takes it as a boolean parameter.
-/

namespace MemQueue

/-- Task identifiers (`uuid.uuid4()` modelled as a fresh-id source). -/
abbrev TaskId := Nat

/-- Opaque handler result payload (`Any` in the source). -/
abbrev Value := String

/-- Opaque task payload (`Dict[str, Any]` in the source). -/
abbrev Payload := List (String × String)

/-- Lifecycle states appearing in the source, plus the `not_found`
sentinel returned by `get_task_result` for unknown identifiers. -/
inductive Status where
  | pending
  | processing
  | completed
  | failed
  | not_found
deriving DecidableEq, Repr

/-- The task dict built by `enqueue` (lines 40–46) and mutated by the
worker (lines 124–125, 135–136, 148–150). -/
structure Task where
  id : TaskId
  type' : String
  data : Payload
  status : Status
  created_at : Nat
  processing_started : Option Nat := none
  completed_at : Option Nat := none
  error : Option String := none
  error_at : Option Nat := none
deriving DecidableEq, Repr

/-- The result record stored in `self.results` (created at lines 50–54,
mutated at lines 126–127, 137–139, 151–153); also the shape of the
`not_found` sentinel (lines 70–73). -/
structure ResultRecord where
  status : Status
  result : Option Value
  created_at : Option Nat := none
  processing_started : Option Nat := none
  completed_at : Option Nat := none
  error : Option String := none
  error_at : Option Nat := none
deriving DecidableEq, Repr

/-- Program counter of the `_worker` coroutine. -/
inductive WorkerPC where
  | top
  | waiting
  | handling (t : Task)
deriving DecidableEq, Repr

/-- The state of one `MemoryQueue` instance.  `dispatched` is a history
variable (not present in the source): it records, in order, the
identifiers of the tasks handed to `process_func`, and is used only to
state multiplicity and ordering properties. -/
structure QState where
  tasks : List Task
  results : List (TaskId × ResultRecord)
  running : Bool
  worker : Option WorkerPC
  nextId : TaskId
  now : Nat
  dispatched : List TaskId
deriving DecidableEq, Repr

/-- Eventual outcome of `process_func` on a given task dict. -/
abbrev Handler := Task → Except String Value

/-- Dictionary lookup `rs[tid]` (first match). -/
def getR (rs : List (TaskId × ResultRecord)) (tid : TaskId) : Option ResultRecord :=
  match rs with
  | [] => none
  | (k, r) :: rest => if k = tid then some r else getR rest tid

/-- Dictionary assignment `rs[tid] = r` (replace first match, else append). -/
def setR (rs : List (TaskId × ResultRecord)) (tid : TaskId) (r : ResultRecord) :
    List (TaskId × ResultRecord) :=
  match rs with
  | [] => [(tid, r)]
  | (k, r0) :: rest => if k = tid then (k, r) :: rest else (k, r0) :: setR rest tid r

/-- In-place mutation of an existing entry, `rs[tid][field] = ...`. -/
def updR (rs : List (TaskId × ResultRecord)) (tid : TaskId)
    (f : ResultRecord → ResultRecord) : List (TaskId × ResultRecord) :=
  match rs with
  | [] => []
  | (k, r0) :: rest => if k = tid then (k, f r0) :: rest else (k, r0) :: updR rest tid f

/-- `MemoryQueue.__init__` (lines 20–24). -/
def initState : QState :=
  { tasks := []
    results := []
    running := false
    worker := none
    nextId := 0
    now := 0
    dispatched := [] }

/-- `MemoryQueue.enqueue` (lines 26–57): draw a fresh id and timestamp,
build the task dict, append it to the FIFO, create the result record.
There is no suspension point between the `put` on the unbounded queue
and the record assignment (`asyncio.Queue.put` never blocks when the
queue has no `maxsize`), so the whole call is one atomic step. -/
def enqueue (s : QState) (type' : String) (data : Payload) : TaskId × QState :=
  let task_id := s.nextId
  let timestamp := s.now
  let task : Task :=
    { id := task_id
      type' := type'
      data := data
      status := .pending
      created_at := timestamp }
  (task_id,
    { s with
        tasks := s.tasks ++ [task]
        results := setR s.results task_id
          { status := .pending, result := none, created_at := some timestamp }
        nextId := s.nextId + 1
        now := s.now + 1 })

/-- `MemoryQueue.get_task_result` (lines 59–75). -/
def get_task_result (s : QState) (task_id : TaskId) : ResultRecord :=
  match getR s.results task_id with
  | none => { status := .not_found, result := none }
  | some r => r

/-- `MemoryQueue.start_worker` (lines 77–89): no-op when already
running, otherwise mark running and spawn the worker coroutine at the
top of its loop. -/
def start_worker (s : QState) : QState :=
  if s.running then s
  else { s with running := true, worker := some .top }

/-- Lines 134–139 and 143–153 of `_worker`: the bookkeeping performed
when `await process_func(task)` returns normally (status `completed`,
store the result) or raises (status `failed`, store the stringified
error).  The worker also mutates its local task dict, but that dict is
no longer reachable from the queue after it was popped. -/
def finishTask (s : QState) (handler : Handler) (t : Task) : QState :=
  match handler t with
  | .ok v =>
      { s with
          results := updR s.results t.id (fun r =>
            { r with status := .completed, result := some v, completed_at := some s.now })
          now := s.now + 1 }
  | .error msg =>
      { s with
          results := updR s.results t.id (fun r =>
            { r with status := .failed, error := some msg, error_at := some s.now })
          now := s.now + 1 }

/-- `MemoryQueue.stop_worker` (lines 91–103): no-op when not running;
otherwise set `_running = False`, cancel the worker task and await its
exit.  `cancelInHandler` resolves the timing race when the worker is
suspended inside `await process_func(task)`: `true` means the
`CancelledError` is delivered there (it escapes `except Exception` and
the loop breaks, leaving the record as it was); `false` means the
handler finishes first, the completion bookkeeping runs, and the loop
then exits at `while self._running`. -/
def stop_worker (s : QState) (handler : Handler) (cancelInHandler : Bool) : QState :=
  if s.running then
    let s' : QState := { s with running := false }
    match s.worker with
    | none => s'
    | some .top => { s' with worker := none }
    | some .waiting => { s' with worker := none }
    | some (.handling t) =>
        if cancelInHandler then { s' with worker := none }
        else { finishTask s' handler t with worker := none }
  else s

/-- Interleaving labels: producer/control calls and worker micro-steps. -/
inductive Act where
  | enq (type' : String) (data : Payload)
  | start
  | stop (cancelInHandler : Bool)
  | loopCheck
  | timeout
  | dequeue
  | finish
deriving DecidableEq, Repr

/-- One atomic step of the system.  `none` means the label is not
enabled in this state (e.g. a dequeue with nothing queued). -/
def step (handler : Handler) (s : QState) : Act → Option QState
  | .enq ty d => some (enqueue s ty d).2
  | .start => some (start_worker s)
  | .stop c => some (stop_worker s handler c)
  | .loopCheck =>
      match s.worker with
      | some .top =>
          some (if s.running then { s with worker := some .waiting }
                else { s with worker := none })
      | _ => none
  | .timeout =>
      match s.worker, s.tasks with
      | some .waiting, [] => some { s with worker := some .top }
      | _, _ => none
  | .dequeue =>
      match s.worker, s.tasks with
      | some .waiting, t :: rest =>
          some { s with
                   tasks := rest
                   worker := some (.handling
                     { t with status := .processing, processing_started := some s.now })
                   results := updR s.results t.id (fun r =>
                     { r with status := .processing, processing_started := some s.now })
                   dispatched := s.dispatched ++ [t.id]
                   now := s.now + 1 }
      | _, _ => none
  | .finish =>
      match s.worker with
      | some (.handling t) => some { finishTask s handler t with worker := some .top }
      | _ => none

/-- Run a list of steps; fails if any label is not enabled. -/
def run (handler : Handler) : List Act → QState → Option QState
  | [], s => some s
  | a :: acts, s =>
      match step handler s a with
      | none => none
      | some s' => run handler acts s'

/-- States reachable from a fresh `MemoryQueue`. -/
inductive Reachable (handler : Handler) : QState → Prop where
  | init : Reachable handler initState
  | step {s s' : QState} {a : Act} :
      Reachable handler s → step handler s a = some s' → Reachable handler s'

/-- Which backend `create_queue` constructs.  The source contains only
`MemoryQueue`; the comment at line 169 marks the Redis variant as
unimplemented. -/
inductive QueueImpl where
  | memory
  | redis
deriving DecidableEq, Repr

/-- The factory `create_queue` (lines 171–184): both branches of the
`settings.QUEUE_SYSTEM` test construct a fresh `MemoryQueue` (the
`"redis"` branch merely logs a warning first). -/
def create_queue (queue_system : String) : QueueImpl × QState :=
  if queue_system.toLower = "redis" then (.memory, initState)
  else (.memory, initState)

/-- The lifecycle order on record statuses as observed through
`get_task_result`: `not_found` (no record yet) can only move to a real
status, `pending` to `processing` or a terminal status, `processing` to
a terminal status, and the two terminal statuses are maximal and
mutually unreachable (hence at most one terminal transition). -/
def statusLe (a b : Status) : Prop :=
  a = b ∨ a = .not_found ∨
    (a = .pending ∧ (b = .processing ∨ b = .completed ∨ b = .failed)) ∨
    (a = .processing ∧ (b = .completed ∨ b = .failed))

/-- Whether a label is an `enqueue` call. -/
def Act.isEnq : Act → Bool
  | .enq _ _ => true
  | _ => false

/-- The identifiers returned by the `enqueue` calls of a trace, in call
order (empty once the trace is disabled). -/
def enqIds (handler : Handler) : List Act → QState → List TaskId
  | [], _ => []
  | a :: acts, s =>
      match step handler s a with
      | none => []
      | some s' =>
          match a with
          | .enq ty d => (enqueue s ty d).1 :: enqIds handler acts s'
          | _ => enqIds handler acts s'

/-- Well-formedness of a single result record relative to the clock. -/
structure RecordWf (r : ResultRecord) (clock : Nat) : Prop where
  statusNotSentinel : r.status ≠ .not_found
  resultCompleted : r.result ≠ none → r.status = .completed
  errorFailed : r.error ≠ none → r.status = .failed
  pendingNoStart : r.status = .pending → r.processing_started = none
  startedOfNotPending : r.status ≠ .pending → r.processing_started ≠ none
  startedLt : ∀ q, r.processing_started = some q → q < clock

/-- The inductive invariant of the queue state. -/
structure Inv (s : QState) : Prop where
  keysNodup : (s.results.map Prod.fst).Nodup
  keysLt : ∀ p ∈ s.results, p.1 < s.nextId
  tasksLt : ∀ t ∈ s.tasks, t.id < s.nextId
  tasksSorted : s.tasks.Pairwise (fun a b => a.id < b.id)
  queuedPending : ∀ t ∈ s.tasks,
    (getR s.results t.id).map ResultRecord.status = some .pending
  pendingQueued : ∀ p ∈ s.results, p.2.status = .pending → ∃ t ∈ s.tasks, t.id = p.1
  handlingRec : ∀ t, s.worker = some (.handling t) →
    t.id < s.nextId ∧ (getR s.results t.id).map ResultRecord.status = some .processing
  recWf : ∀ p ∈ s.results, RecordWf p.2 s.now
  fifo : ∀ p ∈ s.results, p.2.status ≠ .pending → ∀ t ∈ s.tasks, p.1 < t.id
  order : ∀ p ∈ s.results, ∀ q ∈ s.results, p.1 < q.1 →
    ∀ n, q.2.processing_started = some n →
    ∃ m, p.2.processing_started = some m ∧ m < n
  dispNodup : s.dispatched.Nodup
  dispLt : ∀ i ∈ s.dispatched, i < s.nextId
  dispSorted : s.dispatched.Pairwise (fun a b => a < b)
  dispLtQueued : ∀ i ∈ s.dispatched, ∀ t ∈ s.tasks, i < t.id

/-! Concrete executions used to witness the theorems below. -/

/-- A handler that fails on task 0 and succeeds on every other task. -/
def boomHandler : Handler :=
  fun t => if t.id = 0 then .error "boom" else .ok "done"

/-- A handler that succeeds on every task. -/
def okHandler : Handler := fun _ => .ok "done"

/-- Fallback values for total projections out of concrete states. -/
def defaultTask : Task :=
  { id := 0, type' := "", data := [], status := .pending, created_at := 0 }

def defaultRecord : ResultRecord := { status := .not_found, result := none }

/-- Two tasks enqueued, worker started and waiting for work. -/
def wState : QState :=
  (run boomHandler [.enq "boom" [], .enq "echo" [], .start, .loopCheck]
    initState).getD initState

def wTaskA : Task := wState.tasks.getD 0 defaultTask

def wTaskB : Task := wState.tasks.getD 1 defaultTask

/-- One task enqueued and dispatched; the worker is suspended inside the
handler call. -/
def inflightState : QState :=
  (run okHandler [.enq "work" [], .start, .loopCheck, .dequeue] initState).getD initState

def inflightTask : Task :=
  match inflightState.worker with
  | some (.handling t) => t
  | _ => defaultTask

/-- Two tasks enqueued; the first fully processed, the second just
dispatched: both records carry a processing-start timestamp. -/
def fifoState : QState :=
  (run okHandler
    [.enq "a" [], .enq "b" [], .start, .loopCheck, .dequeue, .finish,
     .loopCheck, .dequeue] initState).getD initState

def fifoRec0 : ResultRecord := (getR fifoState.results 0).getD defaultRecord

def fifoRec1 : ResultRecord := (getR fifoState.results 1).getD defaultRecord

/-- One task enqueued, no worker ever started. -/
def afterEnqState : QState := (enqueue initState "t" []).2

/-- A second task enqueued after the first, still with no worker. -/
def afterTwoEnqState : QState :=
  (run okHandler [.enq "u" []] afterEnqState).getD initState

/-! Lemmas about the dictionary operations. -/

theorem getR_setR (rs : List (TaskId × ResultRecord)) (k : TaskId) (r : ResultRecord)
    (tid : TaskId) :
    getR (setR rs k r) tid = if k = tid then some r else getR rs tid := by
  induction rs with
  | nil => by_cases h : k = tid <;> simp [getR, setR, h]
  | cons p rest ih =>
    obtain ⟨k0, r0⟩ := p
    by_cases h0 : k0 = k
    · subst h0
      by_cases h1 : k0 = tid <;> simp [getR, setR, h1]
    · simp only [setR, if_neg h0, getR]
      by_cases h1 : k0 = tid
      · subst h1
        have hk : ¬ (k = k0) := fun h => h0 h.symm
        simp [hk]
      · simp [h1, ih]

theorem getR_updR (rs : List (TaskId × ResultRecord)) (k : TaskId)
    (f : ResultRecord → ResultRecord) (tid : TaskId) :
    getR (updR rs k f) tid = if k = tid then (getR rs k).map f else getR rs tid := by
  induction rs with
  | nil => by_cases h : k = tid <;> simp [getR, updR, h]
  | cons p rest ih =>
    obtain ⟨k0, r0⟩ := p
    by_cases h0 : k0 = k
    · subst h0
      by_cases h1 : k0 = tid <;> simp [getR, updR, h1]
    · simp only [updR, if_neg h0, getR]
      by_cases h1 : k0 = tid
      · subst h1
        have hk : ¬ (k = k0) := fun h => h0 h.symm
        simp [getR, hk, if_neg h0]
      · simp [getR, h1, ih, if_neg h0]

theorem mem_of_getR {rs : List (TaskId × ResultRecord)} {k : TaskId} {r : ResultRecord}
    (h : getR rs k = some r) : (k, r) ∈ rs := by
  induction rs with
  | nil => simp [getR] at h
  | cons p rest ih =>
    obtain ⟨k0, r0⟩ := p
    by_cases h1 : k0 = k
    · subst h1
      simp [getR] at h
      simp [h]
    · simp [getR, h1] at h
      exact List.mem_cons_of_mem _ (ih h)

theorem getR_eq_none_iff {rs : List (TaskId × ResultRecord)} {k : TaskId} :
    getR rs k = none ↔ k ∉ rs.map Prod.fst := by
  induction rs with
  | nil => simp [getR]
  | cons p rest ih =>
    obtain ⟨k0, r0⟩ := p
    by_cases h1 : k0 = k
    · subst h1
      simp [getR]
    · have hne : ¬ k = k0 := fun h => h1 h.symm
      simp [getR, h1, ih, hne]

theorem setR_of_not_mem {rs : List (TaskId × ResultRecord)} {k : TaskId}
    (r : ResultRecord) (h : getR rs k = none) : setR rs k r = rs ++ [(k, r)] := by
  induction rs with
  | nil => simp [setR]
  | cons p rest ih =>
    obtain ⟨k0, r0⟩ := p
    by_cases h1 : k0 = k
    · subst h1
      simp [getR] at h
    · simp only [getR, if_neg h1] at h
      simp [setR, h1, ih h]

theorem keys_updR (rs : List (TaskId × ResultRecord)) (k : TaskId)
    (f : ResultRecord → ResultRecord) :
    (updR rs k f).map Prod.fst = rs.map Prod.fst := by
  induction rs with
  | nil => simp [updR]
  | cons p rest ih =>
    obtain ⟨k0, r0⟩ := p
    by_cases h1 : k0 = k <;> simp [updR, h1, ih]

theorem mem_updR_nodup {rs : List (TaskId × ResultRecord)} {k : TaskId}
    {f : ResultRecord → ResultRecord} {p : TaskId × ResultRecord}
    (hnd : (rs.map Prod.fst).Nodup) (hp : p ∈ updR rs k f) :
    (p ∈ rs ∧ p.1 ≠ k) ∨ ∃ r0, getR rs k = some r0 ∧ p = (k, f r0) := by
  induction rs with
  | nil => simp [updR] at hp
  | cons q rest ih =>
    obtain ⟨k0, r0⟩ := q
    simp only [List.map_cons, List.nodup_cons] at hnd
    by_cases h1 : k0 = k
    · subst h1
      simp only [updR, if_pos rfl] at hp
      rcases List.mem_cons.mp hp with h | h
      · exact Or.inr ⟨r0, by simp [getR], h⟩
      · refine Or.inl ⟨List.mem_cons_of_mem _ h, ?_⟩
        intro hk
        exact hnd.1 (hk ▸ (List.mem_map.mpr ⟨p, h, rfl⟩))
    · simp only [updR, if_neg h1] at hp
      rcases List.mem_cons.mp hp with h | h
      · subst h
        exact Or.inl ⟨List.mem_cons_self _ _, fun hk => h1 hk⟩
      · rcases ih hnd.2 h with ⟨hmem, hne⟩ | ⟨r1, hget, hpe⟩
        · exact Or.inl ⟨List.mem_cons_of_mem _ hmem, hne⟩
        · exact Or.inr ⟨r1, by simp [getR, h1, hget], hpe⟩

theorem RecordWf.mono {r : ResultRecord} {c c' : Nat} (h : RecordWf r c) (hc : c ≤ c') :
    RecordWf r c' :=
  { h with startedLt := fun q hq => Nat.lt_of_lt_of_le (h.startedLt q hq) hc }

theorem inv_init : Inv initState := by
  constructor <;> simp [initState]

/-- Changing only the worker pc and the running flag preserves the
invariant, provided the new pc still satisfies the handling clause. -/
theorem inv_worker {s : QState} (hInv : Inv s) (w : Option WorkerPC) (b : Bool)
    (hw : ∀ t, w = some (.handling t) →
      t.id < s.nextId ∧ (getR s.results t.id).map ResultRecord.status = some .processing) :
    Inv { s with worker := w, running := b } :=
  ⟨hInv.keysNodup, hInv.keysLt, hInv.tasksLt, hInv.tasksSorted, hInv.queuedPending,
   hInv.pendingQueued, hw, hInv.recWf, hInv.fifo, hInv.order, hInv.dispNodup,
   hInv.dispLt, hInv.dispSorted, hInv.dispLtQueued⟩

theorem inv_enqueue {s : QState} (hInv : Inv s) (ty : String) (d : Payload) :
    Inv (enqueue s ty d).2 := by
  have hfresh : getR s.results s.nextId = none := by
    rw [getR_eq_none_iff]
    intro hmem
    rcases List.mem_map.mp hmem with ⟨p, hp, hpk⟩
    exact Nat.lt_irrefl _ (hpk ▸ hInv.keysLt p hp)
  have hmemS : ∀ p, p ∈ setR s.results s.nextId
      { status := .pending, result := none, created_at := some s.now } →
      p ∈ s.results ∨
        p = (s.nextId, { status := .pending, result := none, created_at := some s.now }) := by
    intro p hp
    rw [setR_of_not_mem _ hfresh] at hp
    rcases List.mem_append.mp hp with h | h
    · exact Or.inl h
    · exact Or.inr (by simpa using h)
  have htasks : (enqueue s ty d).2.tasks =
      s.tasks ++ [{ id := s.nextId, type' := ty, data := d,
                    status := .pending, created_at := s.now }] := rfl
  have hres : (enqueue s ty d).2.results =
      setR s.results s.nextId
        { status := .pending, result := none, created_at := some s.now } := rfl
  have hnext : (enqueue s ty d).2.nextId = s.nextId + 1 := rfl
  refine
    { keysNodup := ?_, keysLt := ?_, tasksLt := ?_, tasksSorted := ?_,
      queuedPending := ?_, pendingQueued := ?_, handlingRec := ?_, recWf := ?_,
      fifo := ?_, order := ?_, dispNodup := ?_, dispLt := ?_, dispSorted := ?_,
      dispLtQueued := ?_ }
  · show (List.map Prod.fst (setR s.results s.nextId _)).Nodup
    rw [setR_of_not_mem _ hfresh, List.map_append]
    refine List.Nodup.append hInv.keysNodup (by simp) ?_
    intro a ha hb
    rcases List.mem_map.mp ha with ⟨p, hp, hpk⟩
    simp only [List.map_cons, List.map_nil, List.mem_singleton] at hb
    exact Nat.lt_irrefl _ ((hpk.trans hb) ▸ hInv.keysLt p hp)
  · intro p hp
    rcases hmemS p hp with h | h
    · exact Nat.lt_trans (hInv.keysLt p h) (Nat.lt_succ_self _)
    · subst h; exact Nat.lt_succ_self _
  · intro t ht
    rcases List.mem_append.mp ht with h | h
    · exact Nat.lt_trans (hInv.tasksLt t h) (Nat.lt_succ_self _)
    · simp only [List.mem_singleton] at h
      subst h; exact Nat.lt_succ_self _
  · rw [htasks, List.pairwise_append]
    refine ⟨hInv.tasksSorted, by simp, ?_⟩
    intro a ha b hb
    simp only [List.mem_singleton] at hb
    subst hb
    exact hInv.tasksLt a ha
  · intro t ht
    rw [hres, getR_setR]
    rcases List.mem_append.mp ht with h | h
    · rw [if_neg (Nat.ne_of_gt (hInv.tasksLt t h))]
      exact hInv.queuedPending t h
    · simp only [List.mem_singleton] at h
      subst h
      simp
  · intro p hp hpend
    rcases hmemS p hp with h | h
    · rcases hInv.pendingQueued p h hpend with ⟨t, ht, hid⟩
      exact ⟨t, List.mem_append.mpr (Or.inl ht), hid⟩
    · subst h
      exact ⟨_, List.mem_append.mpr (Or.inr (List.mem_singleton.mpr rfl)), rfl⟩
  · intro t ht
    have hold := hInv.handlingRec t ht
    rw [hres, hnext, getR_setR, if_neg (Nat.ne_of_gt hold.1)]
    exact ⟨Nat.lt_trans hold.1 (Nat.lt_succ_self _), hold.2⟩
  · intro p hp
    rcases hmemS p hp with h | h
    · exact (hInv.recWf p h).mono (Nat.le_succ _)
    · subst h
      exact ⟨by simp, by simp, by simp, by simp, by simp, by simp⟩
  · intro p hp hpend t ht
    rcases List.mem_append.mp ht with hto | htn
    · rcases hmemS p hp with h | h
      · exact hInv.fifo p h hpend t hto
      · subst h; simp at hpend
    · simp only [List.mem_singleton] at htn
      subst htn
      rcases hmemS p hp with h | h
      · exact hInv.keysLt p h
      · subst h; simp at hpend
  · intro p hp q hq hlt n hn
    rcases hmemS q hq with h | h
    · rcases hmemS p hp with h' | h'
      · exact hInv.order p h' q h hlt n hn
      · subst h'
        exact absurd (Nat.lt_trans hlt (hInv.keysLt q h)) (Nat.lt_irrefl _)
    · subst h; simp at hn
  · exact hInv.dispNodup
  · intro i hi
    exact Nat.lt_trans (hInv.dispLt i hi) (Nat.lt_succ_self _)
  · exact hInv.dispSorted
  · intro i hi t ht
    rcases List.mem_append.mp ht with h | h
    · exact hInv.dispLtQueued i hi t h
    · simp only [List.mem_singleton] at h
      subst h
      exact hInv.dispLt i hi

/-- Auxiliary preservation lemma for the two terminal transitions: the
worker updates the record of the task it is handling with some `f` that
moves the status to a terminal value and leaves `processing_started`
untouched. -/
theorem inv_finish_upd {s : QState} (hInv : Inv s) {t : Task}
    (hw : s.worker = some (.handling t)) (w : Option WorkerPC)
    (hwn : ∀ t', w ≠ some (.handling t'))
    (f : ResultRecord → ResultRecord) (st : Status)
    (hstT : st = .completed ∨ st = .failed)
    (hfStatus : ∀ r, (f r).status = st)
    (hfPs : ∀ r, (f r).processing_started = r.processing_started)
    (hfRes : ∀ r, (f r).result ≠ none → (f r).status = .completed ∨ r.result ≠ none)
    (hfErr : ∀ r, (f r).error ≠ none → (f r).status = .failed ∨ r.error ≠ none) :
    Inv { s with results := updR s.results t.id f, now := s.now + 1, worker := w } := by
  obtain ⟨hid, hst⟩ := hInv.handlingRec t hw
  obtain ⟨r0, hr0, hr0st⟩ : ∃ r0, getR s.results t.id = some r0 ∧ r0.status = .processing := by
    cases hg : getR s.results t.id with
    | none => rw [hg] at hst; simp at hst
    | some r0 =>
        rw [hg] at hst
        exact ⟨r0, rfl, by simpa using hst⟩
  have hr0mem : (t.id, r0) ∈ s.results := mem_of_getR hr0
  have hr0wf : RecordWf r0 s.now := hInv.recWf _ hr0mem
  have hstne : st ≠ .pending := by rcases hstT with h | h <;> simp [h]
  have hmemU : ∀ p ∈ updR s.results t.id f,
      (p ∈ s.results ∧ p.1 ≠ t.id) ∨ p = (t.id, f r0) := by
    intro p hp
    rcases mem_updR_nodup hInv.keysNodup hp with h | ⟨r1, hg1, hpe⟩
    · exact Or.inl h
    · rw [hr0] at hg1
      cases hg1
      exact Or.inr hpe
  refine
    { keysNodup := ?_, keysLt := ?_, tasksLt := hInv.tasksLt,
      tasksSorted := hInv.tasksSorted, queuedPending := ?_, pendingQueued := ?_,
      handlingRec := ?_, recWf := ?_, fifo := ?_, order := ?_,
      dispNodup := hInv.dispNodup, dispLt := hInv.dispLt,
      dispSorted := hInv.dispSorted, dispLtQueued := hInv.dispLtQueued }
  · show (List.map Prod.fst (updR s.results t.id f)).Nodup
    rw [keys_updR]
    exact hInv.keysNodup
  · intro p hp
    rcases hmemU p hp with ⟨h, _⟩ | h
    · exact hInv.keysLt p h
    · subst h; exact hid
  · intro t'' ht''
    have hne : t.id ≠ t''.id := by
      intro he
      have := hInv.queuedPending t'' ht''
      rw [← he, hr0] at this
      simp [hr0st] at this
    rw [getR_updR, if_neg hne]
    exact hInv.queuedPending t'' ht''
  · intro p hp hpend
    rcases hmemU p hp with ⟨h, _⟩ | h
    · exact hInv.pendingQueued p h hpend
    · subst h
      rw [hfStatus r0] at hpend
      exact absurd hpend hstne
  · intro t' ht'
    exact absurd ht' (hwn t')
  · intro p hp
    rcases hmemU p hp with ⟨h, _⟩ | h
    · exact (hInv.recWf p h).mono (Nat.le_succ _)
    · subst h
      have hr0res : r0.result = none := by
        by_contra hc
        rw [hr0wf.resultCompleted hc] at hr0st
        cases hr0st
      have hr0err : r0.error = none := by
        by_contra hc
        rw [hr0wf.errorFailed hc] at hr0st
        cases hr0st
      refine ⟨?_, ?_, ?_, ?_, ?_, ?_⟩
      · rw [hfStatus r0]
        rcases hstT with h | h <;> simp [h]
      · intro h
        rcases hfRes r0 h with h' | h'
        · exact h'
        · exact absurd hr0res h'
      · intro h
        rcases hfErr r0 h with h' | h'
        · exact h'
        · exact absurd hr0err h'
      · intro h
        rw [hfStatus r0] at h
        exact absurd h hstne
      · intro _
        rw [hfPs r0]
        exact hr0wf.startedOfNotPending (by simp [hr0st])
      · intro q hq
        rw [hfPs r0] at hq
        exact Nat.lt_trans (hr0wf.startedLt q hq) (Nat.lt_succ_self _)
  · intro p hp hpend t'' ht''
    rcases hmemU p hp with ⟨h, _⟩ | h
    · exact hInv.fifo p h hpend t'' ht''
    · subst h
      exact hInv.fifo _ hr0mem (by simp [hr0st]) t'' ht''
  · intro p hp q hq hlt n hn
    have hcorr : ∀ x ∈ updR s.results t.id f, ∃ x' ∈ s.results,
        x'.1 = x.1 ∧ x'.2.processing_started = x.2.processing_started := by
      intro x hx
      rcases hmemU x hx with ⟨h, _⟩ | h
      · exact ⟨x, h, rfl, rfl⟩
      · subst h
        exact ⟨(t.id, r0), hr0mem, rfl, (hfPs r0).symm⟩
    obtain ⟨p', hp', hpk, hpps⟩ := hcorr p hp
    obtain ⟨q', hq', hqk, hqps⟩ := hcorr q hq
    obtain ⟨m, hm, hmn⟩ :=
      hInv.order p' hp' q' hq' (hpk ▸ hqk ▸ hlt) n (hqps ▸ hn)
    exact ⟨m, hpps ▸ hm, hmn⟩

/-- Terminal bookkeeping (`finishTask`) preserves the invariant. -/
theorem inv_finishTask {s : QState} (handler : Handler) {t : Task} (hInv : Inv s)
    (hw : s.worker = some (.handling t)) (w : Option WorkerPC)
    (hwn : ∀ t', w ≠ some (.handling t')) :
    Inv { finishTask s handler t with worker := w } := by
  cases hh : handler t with
  | ok v =>
      have he : ({ finishTask s handler t with worker := w } : QState) =
          { s with
              results := updR s.results t.id (fun r =>
                { r with status := .completed, result := some v,
                         completed_at := some s.now })
              now := s.now + 1
              worker := w } := by
        simp [finishTask, hh]
      rw [he]
      exact inv_finish_upd hInv hw w hwn _ .completed (Or.inl rfl)
        (fun r => rfl) (fun r => rfl) (fun r _ => Or.inl rfl) (fun r h => Or.inr h)
  | error msg =>
      have he : ({ finishTask s handler t with worker := w } : QState) =
          { s with
              results := updR s.results t.id (fun r =>
                { r with status := .failed, error := some msg,
                         error_at := some s.now })
              now := s.now + 1
              worker := w } := by
        simp [finishTask, hh]
      rw [he]
      exact inv_finish_upd hInv hw w hwn _ .failed (Or.inr rfl)
        (fun r => rfl) (fun r => rfl) (fun r h => Or.inr h) (fun r _ => Or.inl rfl)

/-- Dequeuing the head task and marking it `processing` preserves the
invariant. -/
theorem inv_dequeue {s : QState} (hInv : Inv s) {t : Task} {rest : List Task}
    (ht : s.tasks = t :: rest) :
    Inv { s with
            tasks := rest
            worker := some (.handling
              { t with status := .processing, processing_started := some s.now })
            results := updR s.results t.id (fun r =>
              { r with status := .processing, processing_started := some s.now })
            dispatched := s.dispatched ++ [t.id]
            now := s.now + 1 } := by
  have htmem : t ∈ s.tasks := ht ▸ List.mem_cons_self _ _
  have hsort := hInv.tasksSorted
  rw [ht, List.pairwise_cons] at hsort
  obtain ⟨r0, hr0, hr0st⟩ : ∃ r0, getR s.results t.id = some r0 ∧ r0.status = .pending := by
    have := hInv.queuedPending t htmem
    cases hg : getR s.results t.id with
    | none => rw [hg] at this; simp at this
    | some r0 =>
        rw [hg] at this
        exact ⟨r0, rfl, by simpa using this⟩
  have hr0mem : (t.id, r0) ∈ s.results := mem_of_getR hr0
  have hr0wf : RecordWf r0 s.now := hInv.recWf _ hr0mem
  have hr0res : r0.result = none := by
    by_contra hc
    rw [hr0wf.resultCompleted hc] at hr0st
    cases hr0st
  have hr0err : r0.error = none := by
    by_contra hc
    rw [hr0wf.errorFailed hc] at hr0st
    cases hr0st
  have hmemU : ∀ p ∈ updR s.results t.id (fun r =>
      { r with status := .processing, processing_started := some s.now }),
      (p ∈ s.results ∧ p.1 ≠ t.id) ∨
        p = (t.id, { r0 with status := .processing, processing_started := some s.now }) := by
    intro p hp
    rcases mem_updR_nodup hInv.keysNodup hp with h | ⟨r1, hg1, hpe⟩
    · exact Or.inl h
    · rw [hr0] at hg1
      cases hg1
      exact Or.inr hpe
  refine
    { keysNodup := ?_, keysLt := ?_, tasksLt := ?_, tasksSorted := hsort.2,
      queuedPending := ?_, pendingQueued := ?_, handlingRec := ?_, recWf := ?_,
      fifo := ?_, order := ?_, dispNodup := ?_, dispLt := ?_, dispSorted := ?_,
      dispLtQueued := ?_ }
  · show (List.map Prod.fst (updR s.results t.id _)).Nodup
    rw [keys_updR]
    exact hInv.keysNodup
  · intro p hp
    rcases hmemU p hp with ⟨h, _⟩ | h
    · exact hInv.keysLt p h
    · subst h
      exact hInv.tasksLt t htmem
  · intro t'' ht''
    exact hInv.tasksLt t'' (ht ▸ List.mem_cons_of_mem _ ht'')
  · intro t'' ht''
    have hne : t.id ≠ t''.id := Nat.ne_of_lt (hsort.1 t'' ht'')
    rw [getR_updR, if_neg hne]
    exact hInv.queuedPending t'' (ht ▸ List.mem_cons_of_mem _ ht'')
  · intro p hp hpend
    rcases hmemU p hp with ⟨h, hne⟩ | h
    · rcases hInv.pendingQueued p h hpend with ⟨t'', ht'', hid⟩
      rw [ht] at ht''
      rcases List.mem_cons.mp ht'' with h' | h'
      · subst h'
        exact absurd hid.symm hne
      · exact ⟨t'', h', hid⟩
    · subst h
      simp at hpend
  · intro t' ht'
    have ht'e :
        ({ t with status := .processing, processing_started := some s.now } : Task) = t' := by
      simpa using ht'
    subst ht'e
    refine ⟨hInv.tasksLt t htmem, ?_⟩
    show Option.map ResultRecord.status (getR (updR s.results t.id _) t.id) = _
    rw [getR_updR, if_pos rfl, hr0]
    rfl
  · intro p hp
    rcases hmemU p hp with ⟨h, _⟩ | h
    · exact (hInv.recWf p h).mono (Nat.le_succ _)
    · subst h
      refine ⟨by simp, ?_, ?_, by simp, by simp, ?_⟩
      · intro hcon
        simp [hr0res] at hcon
      · intro hcon
        simp [hr0err] at hcon
      · intro q hq
        simp only at hq
        cases hq
        exact Nat.lt_succ_self _
  · intro p hp hpend t'' ht''
    rcases hmemU p hp with ⟨h, _⟩ | h
    · exact hInv.fifo p h hpend t'' (ht ▸ List.mem_cons_of_mem _ ht'')
    · subst h
      exact hsort.1 t'' ht''
  · intro p hp q hq hlt n hn
    rcases hmemU q hq with ⟨hqo, hqne⟩ | hqn
    · rcases hmemU p hp with ⟨hpo, _⟩ | hpn
      · exact hInv.order p hpo q hqo hlt n hn
      · -- p is the freshly dispatched record, q an older one with a start
        -- time: impossible, since q would then precede a task still queued.
        exfalso
        have hqnotpend : q.2.status ≠ .pending := by
          intro hpend
          rw [(hInv.recWf q hqo).pendingNoStart hpend] at hn
          cases hn
        have := hInv.fifo q hqo hqnotpend t htmem
        rw [hpn] at hlt
        exact Nat.lt_irrefl _ (Nat.lt_trans hlt this)
    · subst hqn
      simp only at hn
      cases hn
      rcases hmemU p hp with ⟨hpo, hpne⟩ | hpn
      · have hpnotpend : p.2.status ≠ .pending := by
          intro hpend
          rcases hInv.pendingQueued p hpo hpend with ⟨t'', ht'', hid⟩
          rw [ht] at ht''
          rcases List.mem_cons.mp ht'' with h' | h'
          · subst h'
            exact hpne hid.symm
          · exact Nat.lt_irrefl _ (Nat.lt_trans hlt (hid ▸ hsort.1 t'' h'))
        obtain ⟨m, hm⟩ := Option.ne_none_iff_exists'.mp
          ((hInv.recWf p hpo).startedOfNotPending hpnotpend)
        exact ⟨m, hm, (hInv.recWf p hpo).startedLt m hm⟩
      · rw [hpn] at hlt
        exact absurd rfl (Nat.ne_of_lt hlt)
  · rw [List.nodup_append]
    refine ⟨hInv.dispNodup, by simp, ?_⟩
    intro i hi hti
    simp only [List.mem_singleton] at hti
    exact Nat.ne_of_lt (hInv.dispLtQueued i hi t htmem) hti
  · intro i hi
    rcases List.mem_append.mp hi with h | h
    · exact hInv.dispLt i h
    · simp only [List.mem_singleton] at h
      subst h
      exact hInv.tasksLt t htmem
  · rw [List.pairwise_append]
    refine ⟨hInv.dispSorted, by simp, ?_⟩
    intro i hi j hj
    simp only [List.mem_singleton] at hj
    subst hj
    exact hInv.dispLtQueued i hi t htmem
  · intro i hi t'' ht''
    rcases List.mem_append.mp hi with h | h
    · exact hInv.dispLtQueued i h t'' (ht ▸ List.mem_cons_of_mem _ ht'')
    · simp only [List.mem_singleton] at h
      subst h
      exact hsort.1 t'' ht''

theorem no_handling_none (t' : Task) :
    (none : Option WorkerPC) ≠ some (.handling t') :=
  fun h => Option.noConfusion h

theorem no_handling_top (t' : Task) :
    (some WorkerPC.top : Option WorkerPC) ≠ some (.handling t') :=
  fun h => WorkerPC.noConfusion (Option.some.inj h)

theorem no_handling_waiting (t' : Task) :
    (some WorkerPC.waiting : Option WorkerPC) ≠ some (.handling t') :=
  fun h => WorkerPC.noConfusion (Option.some.inj h)

/-- Every enabled step preserves the invariant. -/
theorem inv_step {handler : Handler} {s s' : QState} {a : Act}
    (hInv : Inv s) (h : step handler s a = some s') : Inv s' := by
  cases a with
  | enq ty d =>
      cases h
      exact inv_enqueue hInv ty d
  | start =>
      cases h
      by_cases hr : s.running
      · rw [start_worker, if_pos hr]
        exact hInv
      · rw [start_worker, if_neg hr]
        exact inv_worker hInv (some .top) true (fun t' ht' => absurd ht' (no_handling_top t'))
  | stop c =>
      cases h
      by_cases hr : s.running
      · rw [stop_worker, if_pos hr]
        cases hww : s.worker with
        | none =>
            exact inv_worker hInv none false
              (fun t' ht' => absurd ht' (no_handling_none t'))
        | some pc =>
            cases pc with
            | top =>
                exact inv_worker hInv none false
                  (fun t' ht' => absurd ht' (no_handling_none t'))
            | waiting =>
                exact inv_worker hInv none false
                  (fun t' ht' => absurd ht' (no_handling_none t'))
            | handling t =>
                cases c with
                | true =>
                    exact inv_worker hInv none false
                      (fun t' ht' => absurd ht' (no_handling_none t'))
                | false =>
                    exact inv_finishTask handler
                      (inv_worker hInv (some (.handling t)) false
                        (fun t' ht' => hInv.handlingRec t' (hww.trans ht')))
                      rfl none no_handling_none
      · rw [stop_worker, if_neg hr]
        exact hInv
  | loopCheck =>
      simp only [step] at h
      cases hww : s.worker with
      | none => rw [hww] at h; cases h
      | some pc =>
          cases pc with
          | waiting => rw [hww] at h; cases h
          | handling t => rw [hww] at h; cases h
          | top =>
              rw [hww] at h
              by_cases hr : s.running
              · rw [if_pos hr] at h
                cases h
                exact inv_worker hInv (some .waiting) s.running
                  (fun t' ht' => absurd ht' (no_handling_waiting t'))
              · rw [if_neg hr] at h
                cases h
                exact inv_worker hInv none s.running
                  (fun t' ht' => absurd ht' (no_handling_none t'))
  | timeout =>
      simp only [step] at h
      cases hww : s.worker with
      | none => rw [hww] at h; cases h
      | some pc =>
          cases pc with
          | top => rw [hww] at h; cases h
          | handling t => rw [hww] at h; cases h
          | waiting =>
              rw [hww] at h
              cases htt : s.tasks with
              | nil =>
                  rw [htt] at h
                  cases h
                  rw [← htt]
                  exact inv_worker hInv (some .top) s.running
                    (fun t' ht' => absurd ht' (no_handling_top t'))
              | cons t rest => rw [htt] at h; cases h
  | dequeue =>
      simp only [step] at h
      cases hww : s.worker with
      | none => rw [hww] at h; cases h
      | some pc =>
          cases pc with
          | top => rw [hww] at h; cases h
          | handling t => rw [hww] at h; cases h
          | waiting =>
              rw [hww] at h
              cases htt : s.tasks with
              | nil => rw [htt] at h; cases h
              | cons t rest =>
                  rw [htt] at h
                  cases h
                  exact inv_dequeue hInv htt
  | finish =>
      simp only [step] at h
      cases hww : s.worker with
      | none => rw [hww] at h; cases h
      | some pc =>
          cases pc with
          | top => rw [hww] at h; cases h
          | waiting => rw [hww] at h; cases h
          | handling t =>
              rw [hww] at h
              cases h
              exact inv_finishTask handler hInv hww (some .top) no_handling_top

/-- Every reachable state satisfies the invariant. -/
theorem reachable_inv {handler : Handler} {s : QState}
    (h : Reachable handler s) : Inv s := by
  induction h with
  | init => exact inv_init
  | step _ hstep ih => exact inv_step ih hstep

theorem run_reachable {handler : Handler} (acts : List Act) :
    ∀ {s0 s : QState}, Reachable handler s0 → run handler acts s0 = some s →
      Reachable handler s := by
  induction acts with
  | nil =>
      intro s0 s h0 h
      simp only [run] at h
      cases h
      exact h0
  | cons a acts ih =>
      intro s0 s h0 h
      simp only [run] at h
      cases hs : step handler s0 a with
      | none => rw [hs] at h; cases h
      | some s1 =>
          rw [hs] at h
          exact ih (Reachable.step h0 hs) h

/-- A state produced by running a trace from a fresh queue is reachable. -/
theorem reachable_run {handler : Handler} {acts : List Act} {s : QState}
    (h : run handler acts initState = some s) : Reachable handler s :=
  run_reachable acts Reachable.init h

theorem finishTask_running (s : QState) (handler : Handler) (t : Task) :
    (finishTask s handler t).running = s.running := by
  cases hh : handler t <;> simp [finishTask, hh]

theorem finishTask_nextId (s : QState) (handler : Handler) (t : Task) :
    (finishTask s handler t).nextId = s.nextId := by
  cases hh : handler t <;> simp [finishTask, hh]

/-- No step ever decreases the fresh-identifier counter. -/
theorem step_nextId_mono {handler : Handler} {s s' : QState} {a : Act}
    (h : step handler s a = some s') : s.nextId ≤ s'.nextId := by
  cases a with
  | enq ty d => cases h; exact Nat.le_succ _
  | start =>
      cases h
      by_cases hr : s.running <;> simp [start_worker, hr]
  | stop c =>
      cases h
      by_cases hr : s.running
      · rw [stop_worker, if_pos hr]
        cases hww : s.worker with
        | none => exact Nat.le_refl _
        | some pc =>
            cases pc with
            | top => exact Nat.le_refl _
            | waiting => exact Nat.le_refl _
            | handling t =>
                cases c with
                | true => exact Nat.le_refl _
                | false => simp [finishTask_nextId]
      · rw [stop_worker, if_neg hr]
  | loopCheck =>
      simp only [step] at h
      cases hww : s.worker with
      | none => rw [hww] at h; cases h
      | some pc =>
          cases pc with
          | waiting => rw [hww] at h; cases h
          | handling t => rw [hww] at h; cases h
          | top =>
              rw [hww] at h
              by_cases hr : s.running
              · rw [if_pos hr] at h; cases h; exact Nat.le_refl _
              · rw [if_neg hr] at h; cases h; exact Nat.le_refl _
  | timeout =>
      simp only [step] at h
      cases hww : s.worker with
      | none => rw [hww] at h; cases h
      | some pc =>
          cases pc with
          | top => rw [hww] at h; cases h
          | handling t => rw [hww] at h; cases h
          | waiting =>
              rw [hww] at h
              cases htt : s.tasks with
              | nil => rw [htt] at h; cases h; exact Nat.le_refl _
              | cons t rest => rw [htt] at h; cases h
  | dequeue =>
      simp only [step] at h
      cases hww : s.worker with
      | none => rw [hww] at h; cases h
      | some pc =>
          cases pc with
          | top => rw [hww] at h; cases h
          | handling t => rw [hww] at h; cases h
          | waiting =>
              rw [hww] at h
              cases htt : s.tasks with
              | nil => rw [htt] at h; cases h
              | cons t rest => rw [htt] at h; cases h; exact Nat.le_refl _
  | finish =>
      simp only [step] at h
      cases hww : s.worker with
      | none => rw [hww] at h; cases h
      | some pc =>
          cases pc with
          | top => rw [hww] at h; cases h
          | waiting => rw [hww] at h; cases h
          | handling t =>
              rw [hww] at h
              cases h
              simp [finishTask_nextId]

/-- The terminal bookkeeping moves the handled task's record from
`processing` to a terminal status and leaves every other record alone. -/
theorem statusLe_finishTask {s : QState} (hInv : Inv s) {t : Task} (handler : Handler)
    (hw : s.worker = some (.handling t)) (tid : TaskId) :
    statusLe (get_task_result s tid).status
      (get_task_result (finishTask s handler t) tid).status := by
  obtain ⟨_, hst⟩ := hInv.handlingRec t hw
  obtain ⟨r0, hr0, hr0st⟩ : ∃ r0, getR s.results t.id = some r0 ∧ r0.status = .processing := by
    cases hg : getR s.results t.id with
    | none => rw [hg] at hst; simp at hst
    | some r0 => rw [hg] at hst; exact ⟨r0, rfl, by simpa using hst⟩
  by_cases he : t.id = tid
  · subst he
    cases hh : handler t with
    | ok v =>
        have hres : (finishTask s handler t).results =
            updR s.results t.id (fun r =>
              { r with status := .completed, result := some v,
                       completed_at := some s.now }) := by
          simp [finishTask, hh]
        unfold get_task_result
        rw [hres, getR_updR, if_pos rfl, hr0]
        exact Or.inr (Or.inr (Or.inr ⟨hr0st, Or.inl rfl⟩))
    | error msg =>
        have hres : (finishTask s handler t).results =
            updR s.results t.id (fun r =>
              { r with status := .failed, error := some msg,
                       error_at := some s.now }) := by
          simp [finishTask, hh]
        unfold get_task_result
        rw [hres, getR_updR, if_pos rfl, hr0]
        exact Or.inr (Or.inr (Or.inr ⟨hr0st, Or.inr rfl⟩))
  · cases hh : handler t with
    | ok v =>
        have hres : (finishTask s handler t).results =
            updR s.results t.id (fun r =>
              { r with status := .completed, result := some v,
                       completed_at := some s.now }) := by
          simp [finishTask, hh]
        unfold get_task_result
        rw [hres, getR_updR, if_neg he]
        exact Or.inl rfl
    | error msg =>
        have hres : (finishTask s handler t).results =
            updR s.results t.id (fun r =>
              { r with status := .failed, error := some msg,
                       error_at := some s.now }) := by
          simp [finishTask, hh]
        unfold get_task_result
        rw [hres, getR_updR, if_neg he]
        exact Or.inl rfl

/-- Dequeuing the head task moves its record from `pending` to
`processing` and leaves every other record alone. -/
theorem statusLe_dequeue {s : QState} (hInv : Inv s) {t : Task} {rest : List Task}
    (ht : s.tasks = t :: rest) (tid : TaskId) :
    statusLe (get_task_result s tid).status
      (get_task_result
        { s with
            tasks := rest
            worker := some (.handling
              { t with status := .processing, processing_started := some s.now })
            results := updR s.results t.id (fun r =>
              { r with status := .processing, processing_started := some s.now })
            dispatched := s.dispatched ++ [t.id]
            now := s.now + 1 } tid).status := by
  have htmem : t ∈ s.tasks := ht ▸ List.mem_cons_self _ _
  have hq := hInv.queuedPending t htmem
  by_cases he : t.id = tid
  · subst he
    obtain ⟨r0, hr0, hr0st⟩ : ∃ r0, getR s.results t.id = some r0 ∧ r0.status = .pending := by
      cases hg : getR s.results t.id with
      | none => rw [hg] at hq; simp at hq
      | some r0 => rw [hg] at hq; exact ⟨r0, rfl, by simpa using hq⟩
    unfold get_task_result
    rw [getR_updR, if_pos rfl, hr0]
    exact Or.inr (Or.inr (Or.inl ⟨hr0st, Or.inl rfl⟩))
  · unfold get_task_result
    rw [getR_updR, if_neg he]
    exact Or.inl rfl

/-! The specified properties. -/

/-- C3: for every result record and every sequence of queue operations,
the record's status only ever advances along
`pending → processing → (completed | failed)` (with `not_found` as the
state before the record exists): every enabled step from a reachable
state moves every identifier's observed status upward in the lifecycle
order `statusLe`, under which the two terminal statuses are maximal and
mutually unreachable, so a record never reverts and makes at most one
terminal transition. -/
theorem C3_status_monotonic {handler : Handler} {s s' : QState} {a : Act} (tid : TaskId)
    (hreach : Reachable handler s) (h : step handler s a = some s') :
    statusLe (get_task_result s tid).status (get_task_result s' tid).status := by
  have hInv := reachable_inv hreach
  cases a with
  | enq ty d =>
      cases h
      have hres : (enqueue s ty d).2.results = setR s.results s.nextId
          { status := .pending, result := none, created_at := some s.now } := rfl
      unfold get_task_result
      rw [hres, getR_setR]
      by_cases he : s.nextId = tid
      · subst he
        have hfresh : getR s.results s.nextId = none := by
          rw [getR_eq_none_iff]
          intro hmem
          rcases List.mem_map.mp hmem with ⟨p, hp, hpk⟩
          exact Nat.lt_irrefl _ (hpk ▸ hInv.keysLt p hp)
        rw [if_pos rfl, hfresh]
        exact Or.inr (Or.inl rfl)
      · rw [if_neg he]
        exact Or.inl rfl
  | start =>
      cases h
      by_cases hr : s.running
      · rw [start_worker, if_pos hr]
        exact Or.inl rfl
      · rw [start_worker, if_neg hr]
        exact Or.inl rfl
  | stop c =>
      cases h
      by_cases hr : s.running
      · rw [stop_worker, if_pos hr]
        cases hww : s.worker with
        | none => exact Or.inl rfl
        | some pc =>
            cases pc with
            | top => exact Or.inl rfl
            | waiting => exact Or.inl rfl
            | handling t =>
                cases c with
                | true => exact Or.inl rfl
                | false =>
                    exact statusLe_finishTask
                      (inv_worker hInv (some (.handling t)) false
                        (fun t' ht' => hInv.handlingRec t' (hww.trans ht')))
                      handler rfl tid
      · rw [stop_worker, if_neg hr]
        exact Or.inl rfl
  | loopCheck =>
      simp only [step] at h
      cases hww : s.worker with
      | none => rw [hww] at h; cases h
      | some pc =>
          cases pc with
          | waiting => rw [hww] at h; cases h
          | handling t => rw [hww] at h; cases h
          | top =>
              rw [hww] at h
              by_cases hr : s.running
              · rw [if_pos hr] at h; cases h; exact Or.inl rfl
              · rw [if_neg hr] at h; cases h; exact Or.inl rfl
  | timeout =>
      simp only [step] at h
      cases hww : s.worker with
      | none => rw [hww] at h; cases h
      | some pc =>
          cases pc with
          | top => rw [hww] at h; cases h
          | handling t => rw [hww] at h; cases h
          | waiting =>
              rw [hww] at h
              cases htt : s.tasks with
              | nil => rw [htt] at h; cases h; exact Or.inl rfl
              | cons t rest => rw [htt] at h; cases h
  | dequeue =>
      simp only [step] at h
      cases hww : s.worker with
      | none => rw [hww] at h; cases h
      | some pc =>
          cases pc with
          | top => rw [hww] at h; cases h
          | handling t => rw [hww] at h; cases h
          | waiting =>
              rw [hww] at h
              cases htt : s.tasks with
              | nil => rw [htt] at h; cases h
              | cons t rest =>
                  rw [htt] at h
                  cases h
                  exact statusLe_dequeue hInv htt tid
  | finish =>
      simp only [step] at h
      cases hww : s.worker with
      | none => rw [hww] at h; cases h
      | some pc =>
          cases pc with
          | top => rw [hww] at h; cases h
          | waiting => rw [hww] at h; cases h
          | handling t =>
              rw [hww] at h
              cases h
              exact statusLe_finishTask hInv handler hww tid

/-- Witness for C3 at a concrete transition: enqueuing the first task
moves identifier 0 from `not_found` to `pending`. -/
theorem C3_status_monotonic_witness :
    statusLe (get_task_result initState 0).status
      (get_task_result (enqueue initState "t" []).2 0).status :=
  @C3_status_monotonic okHandler initState (enqueue initState "t" []).2
    (.enq "t" []) 0 Reachable.init rfl

/-- C10: for every value of the `QUEUE_SYSTEM` setting — including
`"redis"` — `create_queue` constructs a fresh in-memory `MemoryQueue`;
the Redis-backed variant named by the configuration is never
constructed. -/
theorem C10_create_queue_always_memory (queue_system : String) :
    create_queue queue_system = (QueueImpl.memory, initState) := by
  unfold create_queue
  split <;> rfl

/-- Every identifier handed out along a trace is at least the current
value of the fresh-identifier counter. -/
theorem enqIds_ge {handler : Handler} :
    ∀ (acts : List Act) (s : QState), ∀ i ∈ enqIds handler acts s, s.nextId ≤ i := by
  intro acts
  induction acts with
  | nil => intro s i hi; simp [enqIds] at hi
  | cons a acts ih =>
      intro s i hi
      unfold enqIds at hi
      cases hs : step handler s a with
      | none => rw [hs] at hi; simp at hi
      | some s1 =>
          rw [hs] at hi
          cases a with
          | enq ty d =>
              have hs1 : s1 = (enqueue s ty d).2 := (Option.some.inj hs).symm
              rcases List.mem_cons.mp hi with h | h
              · rw [h]; exact Nat.le_refl _
              · have hge := ih s1 i h
                rw [hs1] at hge
                exact Nat.le_trans (Nat.le_succ _) hge
          | start => exact Nat.le_trans (step_nextId_mono hs) (ih s1 i hi)
          | stop c => exact Nat.le_trans (step_nextId_mono hs) (ih s1 i hi)
          | loopCheck => exact Nat.le_trans (step_nextId_mono hs) (ih s1 i hi)
          | timeout => exact Nat.le_trans (step_nextId_mono hs) (ih s1 i hi)
          | dequeue => exact Nat.le_trans (step_nextId_mono hs) (ih s1 i hi)
          | finish => exact Nat.le_trans (step_nextId_mono hs) (ih s1 i hi)

/-- C9: for every trace of queue operations — in particular every
sequence of `enqueue` calls, arbitrarily interleaved with the other
operations — the identifiers returned by `enqueue` are pairwise
distinct.  (`uuid.uuid4()` is modelled as a fresh-identifier source;
the spec itself only demands negligible collision probability of the
128-bit random identifier.) -/
theorem C9_enqueue_ids_pairwise_distinct (handler : Handler) :
    ∀ (acts : List Act) (s : QState), (enqIds handler acts s).Nodup := by
  intro acts
  induction acts with
  | nil => intro s; simp [enqIds]
  | cons a acts ih =>
      intro s
      unfold enqIds
      cases hs : step handler s a with
      | none => simp
      | some s1 =>
          cases a with
          | enq ty d =>
              have hs1 : s1 = (enqueue s ty d).2 := (Option.some.inj hs).symm
              refine List.nodup_cons.mpr ⟨?_, ih s1⟩
              intro hmem
              have hge := enqIds_ge acts s1 _ hmem
              rw [hs1] at hge
              exact Nat.not_succ_le_self _ hge
          | start => exact ih s1
          | stop c => exact ih s1
          | loopCheck => exact ih s1
          | timeout => exact ih s1
          | dequeue => exact ih s1
          | finish => exact ih s1

/-- C5: with a single worker, tasks are dispatched to the handler in
strict enqueue (FIFO) order.  Identifiers are issued in increasing order
by `enqueue`, so enqueue order is identifier order: whenever two result
records both carry a processing-start timestamp, the earlier-enqueued
task started strictly earlier, and the ghost dispatch history is
strictly increasing (no reordering; the single worker structurally
admits no concurrent handler invocations). -/
theorem C5_fifo_processing_order {handler : Handler} {s : QState}
    (hreach : Reachable handler s) {tid1 tid2 : TaskId} {r1 r2 : ResultRecord}
    (h1 : getR s.results tid1 = some r1) (h2 : getR s.results tid2 = some r2)
    (hlt : tid1 < tid2) {n2 : Nat} (hp2 : r2.processing_started = some n2) :
    (∃ n1, r1.processing_started = some n1 ∧ n1 < n2) ∧
      s.dispatched.Pairwise (fun a b => a < b) := by
  have hInv := reachable_inv hreach
  exact ⟨hInv.order _ (mem_of_getR h1) _ (mem_of_getR h2) hlt n2 hp2, hInv.dispSorted⟩

/-- Witness for C5: after fully processing task 0 and dispatching
task 1, task 0's record started at time 2 and task 1's at time 4. -/
theorem C5_fifo_processing_order_witness :
    (∃ n1, fifoRec0.processing_started = some n1 ∧ n1 < 4) ∧
      fifoState.dispatched.Pairwise (fun a b => a < b) :=
  @C5_fifo_processing_order okHandler fifoState
    (@reachable_run okHandler
      [.enq "a" [], .enq "b" [], .start, .loopCheck, .dequeue, .finish,
       .loopCheck, .dequeue] fifoState rfl)
    0 1 fifoRec0 fifoRec1 rfl rfl (by decide) 4 rfl

/-- C6: `get_task_result` is a total, non-blocking point-in-time read:
for an identifier with no record — in particular any identifier never
issued by `enqueue`, all of which are below the fresh-identifier
counter — it returns the `not_found` sentinel with no result, and for a
stored identifier it returns the current record as-is, whatever state
it is in. -/
theorem C6_get_task_result_snapshot {handler : Handler} {s : QState}
    (hreach : Reachable handler s) (tid : TaskId) :
    (getR s.results tid = none →
      get_task_result s tid = { status := .not_found, result := none }) ∧
    (s.nextId ≤ tid →
      get_task_result s tid = { status := .not_found, result := none }) ∧
    (∀ r, getR s.results tid = some r → get_task_result s tid = r) := by
  have hInv := reachable_inv hreach
  refine ⟨?_, ?_, ?_⟩
  · intro h
    unfold get_task_result
    rw [h]
  · intro h
    have hn : getR s.results tid = none := by
      cases hg : getR s.results tid with
      | none => rfl
      | some r =>
          exact absurd (hInv.keysLt _ (mem_of_getR hg)) (Nat.not_lt.mpr h)
    unfold get_task_result
    rw [hn]
  · intro r h
    unfold get_task_result
    rw [h]

/-- Witness for C6 at identifier 5, which was never issued. -/
theorem C6_get_task_result_snapshot_witness :
    (getR fifoState.results 5 = none →
      get_task_result fifoState 5 = { status := .not_found, result := none }) ∧
    (fifoState.nextId ≤ 5 →
      get_task_result fifoState 5 = { status := .not_found, result := none }) ∧
    (∀ r, getR fifoState.results 5 = some r → get_task_result fifoState 5 = r) :=
  C6_get_task_result_snapshot (@reachable_run okHandler
      [.enq "a" [], .enq "b" [], .start, .loopCheck, .dequeue, .finish,
       .loopCheck, .dequeue] fifoState rfl) 5

/-- C7: `start_worker` is idempotent: on a running queue it is a no-op,
so a second call creates no second worker loop (the state has a single
worker slot), and consequently — witnessed by the ghost dispatch
history having no duplicates — no task is ever handed to the handler
more than once. -/
theorem C7_start_worker_idempotent {handler : Handler} {s : QState}
    (hreach : Reachable handler s) :
    (s.running = true → start_worker s = s) ∧
    start_worker (start_worker s) = start_worker s ∧
    s.dispatched.Nodup := by
  have hInv := reachable_inv hreach
  refine ⟨?_, ?_, hInv.dispNodup⟩
  · intro hr
    rw [start_worker, if_pos hr]
  · by_cases hr : s.running
    · have h1 : start_worker s = s := by rw [start_worker, if_pos hr]
      rw [h1, h1]
    · have h1 : start_worker s = { s with running := true, worker := some .top } := by
        rw [start_worker, if_neg hr]
      rw [h1, start_worker, if_pos rfl]

/-- Witness for C7 on a running queue that has dispatched two tasks. -/
theorem C7_start_worker_idempotent_witness :
    (fifoState.running = true → start_worker fifoState = fifoState) ∧
    start_worker (start_worker fifoState) = start_worker fifoState ∧
    fifoState.dispatched.Nodup :=
  C7_start_worker_idempotent (@reachable_run okHandler
      [.enq "a" [], .enq "b" [], .start, .loopCheck, .dequeue, .finish,
       .loopCheck, .dequeue] fifoState rfl)

/-- C8: at every point in a record's lifetime, `result` and `error` are
mutually exclusive: a non-absent `result` occurs only in status
`completed`, a non-absent `error` only in status `failed`, never both,
and both are absent while the record is still `pending` or
`processing`. -/
theorem C8_result_error_exclusive {handler : Handler} {s : QState}
    (hreach : Reachable handler s) (tid : TaskId) :
    ((get_task_result s tid).result ≠ none →
      (get_task_result s tid).status = .completed) ∧
    ((get_task_result s tid).error ≠ none →
      (get_task_result s tid).status = .failed) ∧
    ¬((get_task_result s tid).result ≠ none ∧ (get_task_result s tid).error ≠ none) ∧
    ((get_task_result s tid).status = .pending ∨
        (get_task_result s tid).status = .processing →
      (get_task_result s tid).result = none ∧ (get_task_result s tid).error = none) := by
  have hInv := reachable_inv hreach
  cases hg : getR s.results tid with
  | none =>
      unfold get_task_result
      rw [hg]
      refine ⟨?_, ?_, ?_, ?_⟩ <;> simp
  | some r =>
      have hwf : RecordWf r s.now := hInv.recWf _ (mem_of_getR hg)
      unfold get_task_result
      rw [hg]
      refine ⟨hwf.resultCompleted, hwf.errorFailed, ?_, ?_⟩
      · rintro ⟨h1, h2⟩
        have hc := hwf.resultCompleted h1
        have hf := hwf.errorFailed h2
        rw [hc] at hf
        cases hf
      · intro h
        constructor
        · by_cases hres : r.result = none
          · exact hres
          · exfalso
            rcases h with h | h <;> rw [hwf.resultCompleted hres] at h <;> cases h
        · by_cases herr : r.error = none
          · exact herr
          · exfalso
            rcases h with h | h <;> rw [hwf.errorFailed herr] at h <;> cases h

/-- Witness for C8 on a completed record (task 0 of the FIFO run). -/
theorem C8_result_error_exclusive_witness :
    ((get_task_result fifoState 0).result ≠ none →
      (get_task_result fifoState 0).status = .completed) ∧
    ((get_task_result fifoState 0).error ≠ none →
      (get_task_result fifoState 0).status = .failed) ∧
    ¬((get_task_result fifoState 0).result ≠ none ∧
        (get_task_result fifoState 0).error ≠ none) ∧
    ((get_task_result fifoState 0).status = .pending ∨
        (get_task_result fifoState 0).status = .processing →
      (get_task_result fifoState 0).result = none ∧
        (get_task_result fifoState 0).error = none) :=
  C8_result_error_exclusive (@reachable_run okHandler
      [.enq "a" [], .enq "b" [], .start, .loopCheck, .dequeue, .finish,
       .loopCheck, .dequeue] fifoState rfl) 0

/-- C2 as stated is false on the code.  `stop_worker` cancels the whole
worker task, not only the idle wait: when the worker is suspended inside
`await process_func(task)`, the delivered `CancelledError` is a
`BaseException`, so it escapes `except Exception`, is caught by the
outer `except asyncio.CancelledError`, and the loop breaks.  Concretely:
task 0 is enqueued and dispatched (the worker is mid-handler), then
`stop_worker` runs with the cancellation delivered inside the handler —
the loop has exited (`worker = none`, `stop_worker` returned with
`_running = False`) while task 0's result record is still `processing`,
a non-terminal state it now occupies forever. -/
theorem C2_counterexample :
    run okHandler [.enq "work" [], .start, .loopCheck, .dequeue] initState =
      some inflightState ∧
    inflightState.worker = some (.handling inflightTask) ∧
    inflightState.dispatched = [0] ∧
    (stop_worker inflightState okHandler true).running = false ∧
    (stop_worker inflightState okHandler true).worker = none ∧
    (get_task_result (stop_worker inflightState okHandler true) 0).status =
      .processing :=
  ⟨rfl, rfl, rfl, rfl, rfl, rfl⟩

/-- C2 amended: `stop_worker` cancels the whole worker task, and the
cancellation is delivered at the worker's current suspension point.  If
the in-flight handler invocation happens to finish before the
cancellation is delivered (`cancelInHandler = false`), its bookkeeping
runs and the dispatched task's record reaches a terminal state
(`completed` or `failed`) before the loop exits; but if the
cancellation is delivered inside the handler (`cancelInHandler = true`),
the loop breaks with the record left in `processing` forever. -/
theorem C2_stop_cancellation_amended {handler : Handler} {s : QState} {t : Task}
    (hreach : Reachable handler s) (hw : s.worker = some (.handling t))
    (hr : s.running = true) :
    (stop_worker s handler false).running = false ∧
    (stop_worker s handler false).worker = none ∧
    ((get_task_result (stop_worker s handler false) t.id).status = .completed ∨
      (get_task_result (stop_worker s handler false) t.id).status = .failed) ∧
    (stop_worker s handler true).worker = none ∧
    (get_task_result (stop_worker s handler true) t.id).status = .processing := by
  have hInv := reachable_inv hreach
  obtain ⟨_, hst⟩ := hInv.handlingRec t hw
  obtain ⟨r0, hr0, hr0st⟩ : ∃ r0, getR s.results t.id = some r0 ∧ r0.status = .processing := by
    cases hg : getR s.results t.id with
    | none => rw [hg] at hst; simp at hst
    | some r0 => rw [hg] at hst; exact ⟨r0, rfl, by simpa using hst⟩
  refine ⟨?_, ?_, ?_, ?_, ?_⟩
  · simp [stop_worker, hr, hw, finishTask_running]
  · simp [stop_worker, hr, hw]
  · cases hh : handler t with
    | ok v =>
        left
        have hres : (stop_worker s handler false).results =
            updR s.results t.id (fun r =>
              { r with status := .completed, result := some v,
                       completed_at := some s.now }) := by
          simp [stop_worker, hr, hw, finishTask, hh]
        unfold get_task_result
        rw [hres, getR_updR, if_pos rfl, hr0]
        rfl
    | error msg =>
        right
        have hres : (stop_worker s handler false).results =
            updR s.results t.id (fun r =>
              { r with status := .failed, error := some msg,
                       error_at := some s.now }) := by
          simp [stop_worker, hr, hw, finishTask, hh]
        unfold get_task_result
        rw [hres, getR_updR, if_pos rfl, hr0]
        rfl
  · simp [stop_worker, hr, hw]
  · have hres : (stop_worker s handler true).results = s.results := by
      simp [stop_worker, hr, hw]
    unfold get_task_result
    rw [hres, hr0]
    exact hr0st

/-- Witness for the amended C2 at the concrete in-flight state. -/
theorem C2_stop_cancellation_amended_witness :
    (stop_worker inflightState okHandler false).running = false ∧
    (stop_worker inflightState okHandler false).worker = none ∧
    ((get_task_result (stop_worker inflightState okHandler false)
        inflightTask.id).status = .completed ∨
      (get_task_result (stop_worker inflightState okHandler false)
        inflightTask.id).status = .failed) ∧
    (stop_worker inflightState okHandler true).worker = none ∧
    (get_task_result (stop_worker inflightState okHandler true)
      inflightTask.id).status = .processing :=
  C2_stop_cancellation_amended (@reachable_run okHandler
    [.enq "work" [], .start, .loopCheck, .dequeue] inflightState rfl) rfl rfl

/-- Running any sequence of further `enqueue` calls touches only fresh
identifiers: records at already-issued identifiers are unchanged. -/
theorem run_enqs_preserve {handler : Handler} :
    ∀ (acts : List Act), (∀ a ∈ acts, a.isEnq = true) →
    ∀ (s s'' : QState), run handler acts s = some s'' →
    ∀ tid, tid < s.nextId →
      getR s''.results tid = getR s.results tid ∧ s.nextId ≤ s''.nextId := by
  intro acts
  induction acts with
  | nil =>
      intro _ s s'' h tid _
      simp only [run] at h
      cases h
      exact ⟨rfl, Nat.le_refl _⟩
  | cons a acts ih =>
      intro hAll s s'' h tid hlt
      cases a with
      | enq ty d =>
          simp only [run] at h
          have h' : run handler acts (enqueue s ty d).2 = some s'' := h
          have hlt' : tid < (enqueue s ty d).2.nextId :=
            Nat.lt_trans hlt (Nat.lt_succ_self _)
          obtain ⟨hget, hle⟩ :=
            ih (fun a ha => hAll a (List.mem_cons_of_mem _ ha)) _ _ h' tid hlt'
          constructor
          · rw [hget]
            show getR (setR s.results s.nextId _) tid = getR s.results tid
            rw [getR_setR, if_neg (Nat.ne_of_gt hlt)]
          · exact Nat.le_trans (Nat.le_succ _) hle
      | start => exact absurd (hAll _ (List.mem_cons_self _ _)) (by simp [Act.isEnq])
      | stop c => exact absurd (hAll _ (List.mem_cons_self _ _)) (by simp [Act.isEnq])
      | loopCheck => exact absurd (hAll _ (List.mem_cons_self _ _)) (by simp [Act.isEnq])
      | timeout => exact absurd (hAll _ (List.mem_cons_self _ _)) (by simp [Act.isEnq])
      | dequeue => exact absurd (hAll _ (List.mem_cons_self _ _)) (by simp [Act.isEnq])
      | finish => exact absurd (hAll _ (List.mem_cons_self _ _)) (by simp [Act.isEnq])

/-- C4: `enqueue` creates the task and its result record atomically in
one step (there is no suspension point between the queue `put` and the
record assignment): immediately after the call, `get_task_result` on
the returned identifier yields the fresh `pending` record with no
result and no error, and with no worker started — i.e. under any
further `enqueue`-only activity — the record is still `pending`. -/
theorem C4_enqueue_atomic_pending (handler : Handler) (s : QState)
    (ty : String) (d : Payload) :
    get_task_result (enqueue s ty d).2 (enqueue s ty d).1 =
      { status := .pending, result := none, created_at := some s.now } ∧
    (∀ acts : List Act, (∀ a ∈ acts, a.isEnq = true) →
      ∀ s'', run handler acts (enqueue s ty d).2 = some s'' →
        (get_task_result s'' (enqueue s ty d).1).status = .pending ∧
        (get_task_result s'' (enqueue s ty d).1).result = none ∧
        (get_task_result s'' (enqueue s ty d).1).error = none) := by
  have hkey : getR (enqueue s ty d).2.results (enqueue s ty d).1 =
      some { status := .pending, result := none, created_at := some s.now } := by
    show getR (setR s.results s.nextId _) s.nextId = _
    rw [getR_setR, if_pos rfl]
  constructor
  · unfold get_task_result
    rw [hkey]
  · intro acts hAll s'' hrun
    have hlt : (enqueue s ty d).1 < (enqueue s ty d).2.nextId := Nat.lt_succ_self _
    obtain ⟨hget, _⟩ := run_enqs_preserve acts hAll _ _ hrun _ hlt
    unfold get_task_result
    rw [hget, hkey]
    exact ⟨rfl, rfl, rfl⟩

/-- Witness for C4: first enqueue on a fresh queue, followed by one more
enqueue, with no worker ever started. -/
theorem C4_enqueue_atomic_pending_witness :
    get_task_result afterEnqState 0 =
      { status := .pending, result := none, created_at := some 0 } ∧
    ((get_task_result afterTwoEnqState 0).status = .pending ∧
      (get_task_result afterTwoEnqState 0).result = none ∧
      (get_task_result afterTwoEnqState 0).error = none) :=
  ⟨(C4_enqueue_atomic_pending okHandler initState "t" []).1,
   (C4_enqueue_atomic_pending okHandler initState "t" []).2
     [.enq "u" []] (by decide) afterTwoEnqState rfl⟩

/-- C1: per-task failure isolation.  With the worker waiting and tasks
`A, B, …` queued, if the handler raises on `A` (eventual outcome
`error m` — the stringified exception) and returns `v` on `B`, then the
worker loop processes both: `A`'s record becomes `failed` carrying the
stringified error, the loop does not crash (it is back at its top,
still running), it continues to the next queued task, and `B`'s record
reaches `completed`. -/
theorem C1_failure_isolation {handler : Handler} {s : QState} {A B : Task}
    {rest : List Task} {m : String} {v : Value}
    (hreach : Reachable handler s)
    (hw : s.worker = some .waiting) (hr : s.running = true)
    (ht : s.tasks = A :: B :: rest)
    (hA : ∀ t', t'.id = A.id → handler t' = .error m)
    (hB : ∀ t', t'.id = B.id → handler t' = .ok v) :
    ∃ s', run handler [.dequeue, .finish, .loopCheck, .dequeue, .finish] s = some s' ∧
      (get_task_result s' A.id).status = .failed ∧
      (get_task_result s' A.id).error = some m ∧
      (get_task_result s' B.id).status = .completed ∧
      (get_task_result s' B.id).result = some v ∧
      s'.worker = some WorkerPC.top ∧ s'.running = true := by
  have hInv := reachable_inv hreach
  have hAB : A.id < B.id := by
    have hp := hInv.tasksSorted
    rw [ht, List.pairwise_cons] at hp
    exact hp.1 B (List.mem_cons_self _ _)
  have hBA : ¬ B.id = A.id := fun hc => Nat.lt_irrefl _ (hc ▸ hAB)
  have hABne : ¬ A.id = B.id := Nat.ne_of_lt hAB
  obtain ⟨rA, hrA, hrAst⟩ : ∃ r, getR s.results A.id = some r ∧ r.status = .pending := by
    have hq := hInv.queuedPending A (ht ▸ List.mem_cons_self _ _)
    cases hg : getR s.results A.id with
    | none => rw [hg] at hq; simp at hq
    | some r => rw [hg] at hq; exact ⟨r, rfl, by simpa using hq⟩
  obtain ⟨rB, hrB, hrBst⟩ : ∃ r, getR s.results B.id = some r ∧ r.status = .pending := by
    have hq := hInv.queuedPending B
      (ht ▸ List.mem_cons_of_mem _ (List.mem_cons_self _ _))
    cases hg : getR s.results B.id with
    | none => rw [hg] at hq; simp at hq
    | some r => rw [hg] at hq; exact ⟨r, rfl, by simpa using hq⟩
  have hhA :
      handler { A with status := .processing, processing_started := some s.now } =
        .error m :=
    hA _ rfl
  have hhB :
      handler
          { B with status := .processing, processing_started := some (s.now + 1 + 1) } =
        .ok v :=
    hB _ rfl
  refine
    ⟨{ s with
         tasks := rest
         worker := some WorkerPC.top
         results :=
           updR
             (updR
               (updR
                 (updR s.results A.id (fun r =>
                   { r with status := .processing, processing_started := some s.now }))
                 A.id (fun r =>
                   { r with status := .failed, error := some m,
                            error_at := some (s.now + 1) }))
               B.id (fun r =>
                 { r with status := .processing,
                          processing_started := some (s.now + 1 + 1) }))
             B.id (fun r =>
               { r with status := .completed, result := some v,
                        completed_at := some (s.now + 1 + 1 + 1) })
         dispatched := s.dispatched ++ [A.id] ++ [B.id]
         now := s.now + 1 + 1 + 1 + 1 },
     ?_, ?_, ?_, ?_, ?_, ?_, ?_⟩
  · simp [run, step, hw, ht, hr, finishTask, hhA, hhB]
  · simp [get_task_result, getR_updR, hBA, hrA]
  · simp [get_task_result, getR_updR, hBA, hrA]
  · simp [get_task_result, getR_updR, hBA, hABne, hrB]
  · simp [get_task_result, getR_updR, hBA, hABne, hrB]
  · rfl
  · exact hr

/-- Witness for C1: a failing `"boom"` task followed by a succeeding
`"echo"` task on a running worker. -/
theorem C1_failure_isolation_witness :
    ∃ s', run boomHandler [.dequeue, .finish, .loopCheck, .dequeue, .finish] wState =
        some s' ∧
      (get_task_result s' wTaskA.id).status = .failed ∧
      (get_task_result s' wTaskA.id).error = some "boom" ∧
      (get_task_result s' wTaskB.id).status = .completed ∧
      (get_task_result s' wTaskB.id).result = some "done" ∧
      s'.worker = some WorkerPC.top ∧ s'.running = true :=
  C1_failure_isolation
    (@reachable_run boomHandler
      [.enq "boom" [], .enq "echo" [], .start, .loopCheck] wState rfl)
    rfl rfl rfl
    (fun t' h => by
      have h0 : t'.id = 0 := h
      simp [boomHandler, h0])
    (fun t' h => by
      have h1 : t'.id = 1 := h
      simp [boomHandler, h1])

end MemQueue
